import Mathlib

/-!
Verification of the vector arithmetic kernels in
`src/lib_dsp/src/float/dsp_fp_vector.c` (lib_dsp, float variant).

The four C functions each take three pointers `a` (output), `b`, `c`
(inputs) and an element count `length`, and loop `for (i = 0; i < length;
i++)` writing one output element per iteration.  Pointers may alias, so we
embed the functions against a flat memory `Nat → α`: a pointer is a base
address (a natural number) and `p[i]` is the memory cell at address
`p + i`.  A `dsp_complex_float_t` occupies two consecutive cells,
`.re` at offset `2*i` and `.im` at offset `2*i + 1`, matching the struct
layout of two adjacent double fields.  Double-precision samples are
modelled as elements of an arbitrary commutative ring (exact arithmetic,
no rounding), instantiated at `ℤ` for concrete evaluations.

Each kernel is a structural recursion on `length` that performs the loop
iterations in program order: the `length = n + 1` case first runs
iterations `0 .. n-1`, then performs iteration `n`.  The complex kernel's
iteration performs its two assignments in source order: the `.re` store
happens first, and the `.im` right-hand side is evaluated against the
memory resulting from that store — this is exactly the behaviour of the C
statements

  a[i].re = b[i].re * c[i].re - b[i].im * c[i].im ;
  a[i].im = b[i].re * c[i].im + b[i].im * c[i].re ;

and is what makes full in-place aliasing observable.
-/

set_option linter.unusedSectionVars false

namespace DspFpVector

/-- A flat memory of samples indexed by cell address. -/
abbrev Mem (α : Type) := Nat → α

/-- Write value `v` to the cell at address `p`. -/
def store {α : Type} (m : Mem α) (p : Nat) (v : α) : Mem α :=
  fun q => if q = p then v else m q

/-- The address ranges `[p, p + len)` and `[q, q + len)` do not overlap:
no cell of the first buffer coincides with a cell of the second. -/
abbrev disjointRange (p q len : Nat) : Prop :=
  ∀ i, i < len → ∀ j, j < len → p + i ≠ q + j

variable {α : Type} [CommRing α]

/-- Embedding of `dsp_sub_vect_float`: for `i` in `0 .. length-1`,
`a[i] = b[i] - c[i]`. -/
def dsp_sub_vect_float (a b c : Nat) : Nat → Mem α → Mem α
  | 0, m => m
  | n + 1, m =>
      store (dsp_sub_vect_float a b c n m) (a + n)
        (dsp_sub_vect_float a b c n m (b + n) - dsp_sub_vect_float a b c n m (c + n))

/-- Embedding of `dsp_add_vect_float`: for `i` in `0 .. length-1`,
`a[i] = b[i] + c[i]`. -/
def dsp_add_vect_float (a b c : Nat) : Nat → Mem α → Mem α
  | 0, m => m
  | n + 1, m =>
      store (dsp_add_vect_float a b c n m) (a + n)
        (dsp_add_vect_float a b c n m (b + n) + dsp_add_vect_float a b c n m (c + n))

/-- Embedding of `dsp_mul_vect_float`: for `i` in `0 .. length-1`,
`a[i] = b[i] * c[i]`. -/
def dsp_mul_vect_float (a b c : Nat) : Nat → Mem α → Mem α
  | 0, m => m
  | n + 1, m =>
      store (dsp_mul_vect_float a b c n m) (a + n)
        (dsp_mul_vect_float a b c n m (b + n) * dsp_mul_vect_float a b c n m (c + n))

/-- First assignment of iteration `i` of `dsp_mul_vect_complex_float`:
`a[i].re = b[i].re * c[i].re - b[i].im * c[i].im`, reading from and
writing to the current memory `m`. -/
def cmulStepRe (a b c i : Nat) (m : Mem α) : Mem α :=
  store m (a + 2 * i)
    (m (b + 2 * i) * m (c + 2 * i) - m (b + 2 * i + 1) * m (c + 2 * i + 1))

/-- Second assignment of iteration `i` of `dsp_mul_vect_complex_float`:
`a[i].im = b[i].re * c[i].im + b[i].im * c[i].re`, reading from the
memory left by the first assignment. -/
def cmulStepIm (a b c i : Nat) (m : Mem α) : Mem α :=
  store m (a + 2 * i + 1)
    (m (b + 2 * i) * m (c + 2 * i + 1) + m (b + 2 * i + 1) * m (c + 2 * i))

/-- Embedding of `dsp_mul_vect_complex_float`: for `i` in `0 .. length-1`,
store `a[i].re` and then `a[i].im`, in source order. -/
def dsp_mul_vect_complex_float (a b c : Nat) : Nat → Mem α → Mem α
  | 0, m => m
  | n + 1, m =>
      cmulStepIm a b c n (cmulStepRe a b c n (dsp_mul_vect_complex_float a b c n m))

/-- One iteration of a generic element-wise binary loop:
`a[i] = f (b[i]) (c[i])`.  The three real kernels are instances of this
shape, which lets their frame and correctness lemmas be proved once. -/
def binStep (f : α → α → α) (a b c i : Nat) (m : Mem α) : Mem α :=
  store m (a + i) (f (m (b + i)) (m (c + i)))

/-- A generic element-wise binary loop running iterations `0 .. n-1` in
order; the three real kernels are instances of it. -/
def binLoop (f : α → α → α) (a b c : Nat) : Nat → Mem α → Mem α
  | 0, m => m
  | n + 1, m => binStep f a b c n (binLoop f a b c n m)

/-- Concrete memory used in evaluation witnesses: cell `q` holds `q * q`. -/
def memW : Mem ℤ := fun q => (q : ℤ) * (q : ℤ)

/-- Concrete memory holding the complex pair `(1, 2)` at cells `2, 3` and
`(3, 4)` at cells `4, 5`. -/
def memC1 : Mem ℤ := fun q =>
  if q = 2 then 1 else if q = 3 then 2 else if q = 4 then 3 else if q = 5 then 4 else 0

/-- Concrete memory holding `(1, 2)` at cells `0, 1` and `(3, 4)` at
cells `2, 3`. -/
def memC3 : Mem ℤ := fun q =>
  if q = 0 then 1 else if q = 1 then 2 else if q = 2 then 3 else if q = 3 then 4 else 0

/-- Concrete memory holding `(5, 7)` at cells `2, 3` and the complex
unit `(1, 0)` at cells `4, 5`. -/
def memC6 : Mem ℤ := fun q =>
  if q = 2 then 5 else if q = 3 then 7 else if q = 4 then 1 else 0

/-- Concrete memory holding `(1, 2)` at cells `0, 1` and `(3, 4)` at
cells `4, 5`. -/
def memC10 : Mem ℤ := fun q =>
  if q = 0 then 1 else if q = 1 then 2 else if q = 4 then 3 else if q = 5 then 4 else 0

lemma store_same {α : Type} (m : Mem α) (p : Nat) (v : α) : store m p v p = v := by
  simp [store]

lemma store_other {α : Type} (m : Mem α) (p : Nat) (v : α) (q : Nat) (h : q ≠ p) :
    store m p v q = m q := by
  simp [store, h]

lemma disjointRange_mono {p q len len' : Nat} (h : len' ≤ len)
    (hd : disjointRange p q len) : disjointRange p q len' :=
  fun i hi j hj => hd i (by omega) j (by omega)

lemma cmulStepRe_at_re (a b c i : Nat) (m : Mem α) :
    cmulStepRe a b c i m (a + 2 * i)
      = m (b + 2 * i) * m (c + 2 * i) - m (b + 2 * i + 1) * m (c + 2 * i + 1) :=
  store_same _ _ _

lemma cmulStepRe_at_other (a b c i : Nat) (m : Mem α) (q : Nat) (h : q ≠ a + 2 * i) :
    cmulStepRe a b c i m q = m q :=
  store_other _ _ _ _ h

lemma cmulStepIm_at_im (a b c i : Nat) (m : Mem α) :
    cmulStepIm a b c i m (a + 2 * i + 1)
      = m (b + 2 * i) * m (c + 2 * i + 1) + m (b + 2 * i + 1) * m (c + 2 * i) :=
  store_same _ _ _

lemma cmulStepIm_at_other (a b c i : Nat) (m : Mem α) (q : Nat) (h : q ≠ a + 2 * i + 1) :
    cmulStepIm a b c i m q = m q :=
  store_other _ _ _ _ h

lemma dsp_sub_vect_float_eq_binLoop (a b c n : Nat) (m : Mem α) :
    dsp_sub_vect_float a b c n m = binLoop (fun x y => x - y) a b c n m := by
  induction n with
  | zero => rfl
  | succ k ih => simp only [dsp_sub_vect_float, binLoop, binStep, ih]

lemma dsp_add_vect_float_eq_binLoop (a b c n : Nat) (m : Mem α) :
    dsp_add_vect_float a b c n m = binLoop (fun x y => x + y) a b c n m := by
  induction n with
  | zero => rfl
  | succ k ih => simp only [dsp_add_vect_float, binLoop, binStep, ih]

lemma dsp_mul_vect_float_eq_binLoop (a b c n : Nat) (m : Mem α) :
    dsp_mul_vect_float a b c n m = binLoop (fun x y => x * y) a b c n m := by
  induction n with
  | zero => rfl
  | succ k ih => simp only [dsp_mul_vect_float, binLoop, binStep, ih]

/-- Frame property of the generic loop: a cell outside the written range
`\x7b a + j | j < n \x7d` is left unchanged. -/
lemma binLoop_frame (f : α → α → α) (a b c : Nat) (m : Mem α) :
    ∀ n q, (∀ j, j < n → q ≠ a + j) → binLoop f a b c n m q = m q := by
  intro n
  induction n with
  | zero => intro q _; rfl
  | succ k ih =>
      intro q hq
      have h1 : q ≠ a + k := hq k (Nat.lt_succ_self k)
      simp only [binLoop, binStep]
      rw [store_other _ _ _ _ h1]
      exact ih q (fun j hj => hq j (Nat.lt_succ_of_lt hj))

/-- Read correctness of the generic loop: if no input cell read at
iteration `i` was written by an earlier iteration, every output element
is `f` of the INITIAL memory's same-index input elements.  The
hypotheses cover both fully disjoint buffers and the output aliasing an
input (where `b + i = a + j` forces `i = j`, never `j < i`). -/
lemma binLoop_read (f : α → α → α) (a b c : Nat) (m : Mem α) :
    ∀ n, (∀ i j, i < n → j < i → b + i ≠ a + j) →
      (∀ i j, i < n → j < i → c + i ≠ a + j) →
      ∀ i, i < n → binLoop f a b c n m (a + i) = f (m (b + i)) (m (c + i)) := by
  intro n
  induction n with
  | zero => intro _ _ i hi; exact absurd hi (Nat.not_lt_zero i)
  | succ k ih =>
      intro hb hc i hi
      by_cases heq : i = k
      · subst heq
        simp only [binLoop, binStep]
        rw [store_same]
        rw [binLoop_frame f a b c m i (b + i) (fun j hj => hb i j (Nat.lt_succ_self i) hj)]
        rw [binLoop_frame f a b c m i (c + i) (fun j hj => hc i j (Nat.lt_succ_self i) hj)]
      · have hlt : i < k := by omega
        have hne : a + i ≠ a + k := by omega
        simp only [binLoop, binStep]
        rw [store_other _ _ _ _ hne]
        exact ih (fun x y h1 h2 => hb x y (Nat.lt_succ_of_lt h1) h2)
          (fun x y h1 h2 => hc x y (Nat.lt_succ_of_lt h1) h2) i hlt

/-- Frame property of the complex multiply: a cell outside the written
range `\x7b a + j | j < 2 * n \x7d` is left unchanged. -/
lemma cmul_frame (a b c : Nat) (m : Mem α) :
    ∀ n q, (∀ j, j < 2 * n → q ≠ a + j) →
      dsp_mul_vect_complex_float a b c n m q = m q := by
  intro n
  induction n with
  | zero => intro q _; rfl
  | succ k ih =>
      intro q hq
      have h1 : q ≠ a + 2 * k := hq (2 * k) (by omega)
      have h2 : q ≠ a + 2 * k + 1 := by have := hq (2 * k + 1) (by omega); omega
      simp only [dsp_mul_vect_complex_float]
      rw [cmulStepIm_at_other _ _ _ _ _ _ h2, cmulStepRe_at_other _ _ _ _ _ _ h1]
      exact ih q (fun j hj => hq j (by omega))

/-- Read correctness of the complex multiply on disjoint buffers: every
output element is the standard complex product of the initial memory's
same-index input elements. -/
lemma cmul_read (a b c : Nat) (m : Mem α) :
    ∀ n, disjointRange a b (2 * n) → disjointRange a c (2 * n) →
      ∀ i, i < n →
        dsp_mul_vect_complex_float a b c n m (a + 2 * i)
          = m (b + 2 * i) * m (c + 2 * i) - m (b + 2 * i + 1) * m (c + 2 * i + 1)
        ∧ dsp_mul_vect_complex_float a b c n m (a + 2 * i + 1)
          = m (b + 2 * i) * m (c + 2 * i + 1) + m (b + 2 * i + 1) * m (c + 2 * i) := by
  intro n
  induction n with
  | zero => intro _ _ i hi; exact absurd hi (Nat.not_lt_zero i)
  | succ k ih =>
      intro hab hac i hi
      by_cases heq : i = k
      · subst heq
        have fb0 : dsp_mul_vect_complex_float a b c i m (b + 2 * i) = m (b + 2 * i) :=
          cmul_frame a b c m i _
            (fun j hj => by have := hab j (by omega) (2 * i) (by omega); omega)
        have fb1 : dsp_mul_vect_complex_float a b c i m (b + 2 * i + 1) = m (b + 2 * i + 1) :=
          cmul_frame a b c m i _
            (fun j hj => by have := hab j (by omega) (2 * i + 1) (by omega); omega)
        have fc0 : dsp_mul_vect_complex_float a b c i m (c + 2 * i) = m (c + 2 * i) :=
          cmul_frame a b c m i _
            (fun j hj => by have := hac j (by omega) (2 * i) (by omega); omega)
        have fc1 : dsp_mul_vect_complex_float a b c i m (c + 2 * i + 1) = m (c + 2 * i + 1) :=
          cmul_frame a b c m i _
            (fun j hj => by have := hac j (by omega) (2 * i + 1) (by omega); omega)
        have hb0 : b + 2 * i ≠ a + 2 * i := by
          have := hab (2 * i) (by omega) (2 * i) (by omega); omega
        have hb1 : b + 2 * i + 1 ≠ a + 2 * i := by
          have := hab (2 * i) (by omega) (2 * i + 1) (by omega); omega
        have hc0 : c + 2 * i ≠ a + 2 * i := by
          have := hac (2 * i) (by omega) (2 * i) (by omega); omega
        have hc1 : c + 2 * i + 1 ≠ a + 2 * i := by
          have := hac (2 * i) (by omega) (2 * i + 1) (by omega); omega
        simp only [dsp_mul_vect_complex_float]
        constructor
        · rw [cmulStepIm_at_other _ _ _ _ _ _ (show a + 2 * i ≠ a + 2 * i + 1 by omega)]
          rw [cmulStepRe_at_re, fb0, fc0, fb1, fc1]
        · rw [cmulStepIm_at_im]
          rw [cmulStepRe_at_other _ _ _ _ _ _ hb0, cmulStepRe_at_other _ _ _ _ _ _ hc1,
              cmulStepRe_at_other _ _ _ _ _ _ hb1, cmulStepRe_at_other _ _ _ _ _ _ hc0]
          rw [fb0, fc0, fb1, fc1]
      · have hlt : i < k := by omega
        have hrec := ih (disjointRange_mono (by omega) hab)
          (disjointRange_mono (by omega) hac) i hlt
        simp only [dsp_mul_vect_complex_float]
        constructor
        · rw [cmulStepIm_at_other _ _ _ _ _ _ (show a + 2 * i ≠ a + 2 * k + 1 by omega),
              cmulStepRe_at_other _ _ _ _ _ _ (show a + 2 * i ≠ a + 2 * k by omega)]
          exact hrec.1
        · rw [cmulStepIm_at_other _ _ _ _ _ _ (show a + 2 * i + 1 ≠ a + 2 * k + 1 by omega),
              cmulStepRe_at_other _ _ _ _ _ _ (show a + 2 * i + 1 ≠ a + 2 * k by omega)]
          exact hrec.2

/-- In-place complex multiply with the output aliasing input `b` (call
`dsp_mul_vect_complex_float(b, b, c, n)`): the real component is the
correct product real part, but the imaginary component is computed from
the already-overwritten `b[i].re`, yielding
`(b.re * c.re - b.im * c.im) * c.im + b.im * c.re`. -/
lemma cmul_inplace_b (b c : Nat) (m : Mem α) :
    ∀ n, disjointRange b c (2 * n) →
      ∀ i, i < n →
        dsp_mul_vect_complex_float b b c n m (b + 2 * i)
          = m (b + 2 * i) * m (c + 2 * i) - m (b + 2 * i + 1) * m (c + 2 * i + 1)
        ∧ dsp_mul_vect_complex_float b b c n m (b + 2 * i + 1)
          = (m (b + 2 * i) * m (c + 2 * i) - m (b + 2 * i + 1) * m (c + 2 * i + 1))
              * m (c + 2 * i + 1)
            + m (b + 2 * i + 1) * m (c + 2 * i) := by
  intro n
  induction n with
  | zero => intro _ i hi; exact absurd hi (Nat.not_lt_zero i)
  | succ k ih =>
      intro hbc i hi
      by_cases heq : i = k
      · subst heq
        have fb0 : dsp_mul_vect_complex_float b b c i m (b + 2 * i) = m (b + 2 * i) :=
          cmul_frame b b c m i _ (fun j hj => by omega)
        have fb1 : dsp_mul_vect_complex_float b b c i m (b + 2 * i + 1) = m (b + 2 * i + 1) :=
          cmul_frame b b c m i _ (fun j hj => by omega)
        have fc0 : dsp_mul_vect_complex_float b b c i m (c + 2 * i) = m (c + 2 * i) :=
          cmul_frame b b c m i _
            (fun j hj => by have := hbc j (by omega) (2 * i) (by omega); omega)
        have fc1 : dsp_mul_vect_complex_float b b c i m (c + 2 * i + 1) = m (c + 2 * i + 1) :=
          cmul_frame b b c m i _
            (fun j hj => by have := hbc j (by omega) (2 * i + 1) (by omega); omega)
        have hc0 : c + 2 * i ≠ b + 2 * i := by
          have := hbc (2 * i) (by omega) (2 * i) (by omega); omega
        have hc1 : c + 2 * i + 1 ≠ b + 2 * i := by
          have := hbc (2 * i) (by omega) (2 * i + 1) (by omega); omega
        simp only [dsp_mul_vect_complex_float]
        constructor
        · rw [cmulStepIm_at_other _ _ _ _ _ _ (show b + 2 * i ≠ b + 2 * i + 1 by omega)]
          rw [cmulStepRe_at_re, fb0, fc0, fb1, fc1]
        · rw [cmulStepIm_at_im]
          rw [cmulStepRe_at_other _ _ _ _ _ _ hc1,
              cmulStepRe_at_other _ _ _ _ _ _ (show b + 2 * i + 1 ≠ b + 2 * i by omega),
              cmulStepRe_at_other _ _ _ _ _ _ hc0]
          rw [cmulStepRe_at_re, fb0, fc0, fb1, fc1]
      · have hlt : i < k := by omega
        have hrec := ih (disjointRange_mono (by omega) hbc) i hlt
        simp only [dsp_mul_vect_complex_float]
        constructor
        · rw [cmulStepIm_at_other _ _ _ _ _ _ (show b + 2 * i ≠ b + 2 * k + 1 by omega),
              cmulStepRe_at_other _ _ _ _ _ _ (show b + 2 * i ≠ b + 2 * k by omega)]
          exact hrec.1
        · rw [cmulStepIm_at_other _ _ _ _ _ _ (show b + 2 * i + 1 ≠ b + 2 * k + 1 by omega),
              cmulStepRe_at_other _ _ _ _ _ _ (show b + 2 * i + 1 ≠ b + 2 * k by omega)]
          exact hrec.2

/-- In-place complex multiply with the output aliasing input `c` (call
`dsp_mul_vect_complex_float(c, b, c, n)`): the imaginary component is
computed from the already-overwritten `c[i].re`, yielding
`b.re * c.im + b.im * (b.re * c.re - b.im * c.im)`. -/
lemma cmul_inplace_c (b c : Nat) (m : Mem α) :
    ∀ n, disjointRange b c (2 * n) →
      ∀ i, i < n →
        dsp_mul_vect_complex_float c b c n m (c + 2 * i)
          = m (b + 2 * i) * m (c + 2 * i) - m (b + 2 * i + 1) * m (c + 2 * i + 1)
        ∧ dsp_mul_vect_complex_float c b c n m (c + 2 * i + 1)
          = m (b + 2 * i) * m (c + 2 * i + 1)
            + m (b + 2 * i + 1)
                * (m (b + 2 * i) * m (c + 2 * i) - m (b + 2 * i + 1) * m (c + 2 * i + 1)) := by
  intro n
  induction n with
  | zero => intro _ i hi; exact absurd hi (Nat.not_lt_zero i)
  | succ k ih =>
      intro hbc i hi
      by_cases heq : i = k
      · subst heq
        have fb0 : dsp_mul_vect_complex_float c b c i m (b + 2 * i) = m (b + 2 * i) :=
          cmul_frame c b c m i _ (fun j hj => hbc (2 * i) (by omega) j (by omega))
        have fb1 : dsp_mul_vect_complex_float c b c i m (b + 2 * i + 1) = m (b + 2 * i + 1) :=
          cmul_frame c b c m i _
            (fun j hj => by have := hbc (2 * i + 1) (by omega) j (by omega); omega)
        have fc0 : dsp_mul_vect_complex_float c b c i m (c + 2 * i) = m (c + 2 * i) :=
          cmul_frame c b c m i _ (fun j hj => by omega)
        have fc1 : dsp_mul_vect_complex_float c b c i m (c + 2 * i + 1) = m (c + 2 * i + 1) :=
          cmul_frame c b c m i _ (fun j hj => by omega)
        have hb0 : b + 2 * i ≠ c + 2 * i := hbc (2 * i) (by omega) (2 * i) (by omega)
        have hb1 : b + 2 * i + 1 ≠ c + 2 * i := by
          have := hbc (2 * i + 1) (by omega) (2 * i) (by omega); omega
        simp only [dsp_mul_vect_complex_float]
        constructor
        · rw [cmulStepIm_at_other _ _ _ _ _ _ (show c + 2 * i ≠ c + 2 * i + 1 by omega)]
          rw [cmulStepRe_at_re, fb0, fc0, fb1, fc1]
        · rw [cmulStepIm_at_im]
          rw [cmulStepRe_at_other _ _ _ _ _ _ hb0,
              cmulStepRe_at_other _ _ _ _ _ _ (show c + 2 * i + 1 ≠ c + 2 * i by omega),
              cmulStepRe_at_other _ _ _ _ _ _ hb1]
          rw [cmulStepRe_at_re, fb0, fc0, fb1, fc1]
      · have hlt : i < k := by omega
        have hrec := ih (disjointRange_mono (by omega) hbc) i hlt
        simp only [dsp_mul_vect_complex_float]
        constructor
        · rw [cmulStepIm_at_other _ _ _ _ _ _ (show c + 2 * i ≠ c + 2 * k + 1 by omega),
              cmulStepRe_at_other _ _ _ _ _ _ (show c + 2 * i ≠ c + 2 * k by omega)]
          exact hrec.1
        · rw [cmulStepIm_at_other _ _ _ _ _ _ (show c + 2 * i + 1 ≠ c + 2 * k + 1 by omega),
              cmulStepRe_at_other _ _ _ _ _ _ (show c + 2 * i + 1 ≠ c + 2 * k by omega)]
          exact hrec.2

/-- Reading the buffer that is also the output is safe within an
iteration: the cell read at iteration `i` is only written at iteration
`i` itself, never earlier. -/
lemma readSafe_self (a n : Nat) : ∀ i j, i < n → j < i → a + i ≠ a + j :=
  fun i j _ hj => by omega

/-- Disjoint buffers are trivially read-safe (forward orientation). -/
lemma readSafe_fwd {p q n : Nat} (h : disjointRange p q n) :
    ∀ i j, i < n → j < i → p + i ≠ q + j :=
  fun i j hi hj => h i hi j (by omega)

/-- Disjoint buffers are trivially read-safe (reversed orientation). -/
lemma readSafe_rev {p q n : Nat} (h : disjointRange p q n) :
    ∀ i j, i < n → j < i → q + i ≠ p + j :=
  fun i j hi hj => Ne.symm (h j (by omega) i hi)

lemma sub_read (a b c n : Nat) (m : Mem α)
    (hb : ∀ i j, i < n → j < i → b + i ≠ a + j)
    (hc : ∀ i j, i < n → j < i → c + i ≠ a + j)
    (i : Nat) (hi : i < n) :
    dsp_sub_vect_float a b c n m (a + i) = m (b + i) - m (c + i) := by
  rw [dsp_sub_vect_float_eq_binLoop]
  exact binLoop_read _ a b c m n hb hc i hi

lemma add_read (a b c n : Nat) (m : Mem α)
    (hb : ∀ i j, i < n → j < i → b + i ≠ a + j)
    (hc : ∀ i j, i < n → j < i → c + i ≠ a + j)
    (i : Nat) (hi : i < n) :
    dsp_add_vect_float a b c n m (a + i) = m (b + i) + m (c + i) := by
  rw [dsp_add_vect_float_eq_binLoop]
  exact binLoop_read _ a b c m n hb hc i hi

lemma mul_read (a b c n : Nat) (m : Mem α)
    (hb : ∀ i j, i < n → j < i → b + i ≠ a + j)
    (hc : ∀ i j, i < n → j < i → c + i ≠ a + j)
    (i : Nat) (hi : i < n) :
    dsp_mul_vect_float a b c n m (a + i) = m (b + i) * m (c + i) := by
  rw [dsp_mul_vect_float_eq_binLoop]
  exact binLoop_read _ a b c m n hb hc i hi

lemma sub_frame (a b c n : Nat) (m : Mem α) (q : Nat)
    (hq : ∀ j, j < n → q ≠ a + j) :
    dsp_sub_vect_float a b c n m q = m q := by
  rw [dsp_sub_vect_float_eq_binLoop]
  exact binLoop_frame _ a b c m n q hq

lemma add_frame (a b c n : Nat) (m : Mem α) (q : Nat)
    (hq : ∀ j, j < n → q ≠ a + j) :
    dsp_add_vect_float a b c n m q = m q := by
  rw [dsp_add_vect_float_eq_binLoop]
  exact binLoop_frame _ a b c m n q hq

lemma mul_frame (a b c n : Nat) (m : Mem α) (q : Nat)
    (hq : ∀ j, j < n → q ≠ a + j) :
    dsp_mul_vect_float a b c n m q = m q := by
  rw [dsp_mul_vect_float_eq_binLoop]
  exact binLoop_frame _ a b c m n q hq

/-- C1: for every length `n` and complex input buffers `b`, `c` of at
least `n` elements (disjoint from the output buffer `a`),
`dsp_mul_vect_complex_float` writes, for each index `i < n`,
`a[i].re = b[i].re * c[i].re - b[i].im * c[i].im` and
`a[i].im = b[i].re * c[i].im + b[i].im * c[i].re` — standard complex
multiplication. -/
theorem C1_complex_mul_correct (a b c n : Nat) (m : Mem α)
    (hab : disjointRange a b (2 * n)) (hac : disjointRange a c (2 * n))
    (i : Nat) (hi : i < n) :
    dsp_mul_vect_complex_float a b c n m (a + 2 * i)
      = m (b + 2 * i) * m (c + 2 * i) - m (b + 2 * i + 1) * m (c + 2 * i + 1)
    ∧ dsp_mul_vect_complex_float a b c n m (a + 2 * i + 1)
      = m (b + 2 * i) * m (c + 2 * i + 1) + m (b + 2 * i + 1) * m (c + 2 * i) :=
  cmul_read a b c m n hab hac i hi

/-- C1 witness: with `b = [(1, 2)]` at cells 2-3, `c = [(3, 4)]` at
cells 4-5 and length 1, the output at cells 0-1 is `(-5, 10)`. -/
theorem C1_witness :
    dsp_mul_vect_complex_float 0 2 4 1 memC1 (0 + 2 * 0) = -5
    ∧ dsp_mul_vect_complex_float 0 2 4 1 memC1 (0 + 2 * 0 + 1) = 10 := by
  have h := C1_complex_mul_correct 0 2 4 1 memC1 (by decide) (by decide) 0 (by decide)
  exact ⟨h.1.trans (by decide), h.2.trans (by decide)⟩

/-- C2: on disjoint buffers the three real kernels write, for each index
`i < n`, `a[i] = b[i] - c[i]` (sub), `a[i] = b[i] + c[i]` (add) and
`a[i] = b[i] * c[i]` (mul); the first parameter is the output, the next
two the inputs in that order. -/
theorem C2_real_kernels_correct (a b c n : Nat) (m : Mem α)
    (hab : disjointRange a b n) (hac : disjointRange a c n)
    (i : Nat) (hi : i < n) :
    dsp_sub_vect_float a b c n m (a + i) = m (b + i) - m (c + i)
    ∧ dsp_add_vect_float a b c n m (a + i) = m (b + i) + m (c + i)
    ∧ dsp_mul_vect_float a b c n m (a + i) = m (b + i) * m (c + i) :=
  ⟨sub_read a b c n m (readSafe_rev hab) (readSafe_rev hac) i hi,
   add_read a b c n m (readSafe_rev hab) (readSafe_rev hac) i hi,
   mul_read a b c n m (readSafe_rev hab) (readSafe_rev hac) i hi⟩

/-- C2 witness: output at cells 0-1, inputs at cells 2-3 and 4-5,
length 2, evaluated at index 1. -/
theorem C2_witness :
    dsp_sub_vect_float 0 2 4 2 memW (0 + 1) = memW (2 + 1) - memW (4 + 1)
    ∧ dsp_add_vect_float 0 2 4 2 memW (0 + 1) = memW (2 + 1) + memW (4 + 1)
    ∧ dsp_mul_vect_float 0 2 4 2 memW (0 + 1) = memW (2 + 1) * memW (4 + 1) :=
  C2_real_kernels_correct 0 2 4 2 memW (by decide) (by decide) 1 (by decide)

/-- C3 counterexample: the claim that full in-place aliasing is
result-preserving for the complex multiply as well is false.  With
`b = [(1, 2)]` at cells 0-1 and `c = [(3, 4)]` at cells 2-3, the
in-place call writing into `b` produces imaginary component `-14`
(cell 1), while the call writing into the fresh buffer at cells 4-5
produces `10` (cell 5). -/
theorem C3_counterexample :
    dsp_mul_vect_complex_float 0 0 2 1 memC3 (0 + 2 * 0 + 1)
      ≠ dsp_mul_vect_complex_float 4 0 2 1 memC3 (4 + 2 * 0 + 1) := by
  decide

/-- C3 amended: full in-place aliasing (output = first input or output =
second input) produces the fresh-buffer result for each of the THREE
REAL kernels — in particular for `vector_add(A, A, B, N)` — but not for
the complex multiply, whose imaginary component reads the overwritten
real field (see the counterexample and C10). -/
theorem C3_real_inplace_amended (b c n : Nat) (m : Mem α)
    (hbc : disjointRange b c n) (i : Nat) (hi : i < n) :
    dsp_sub_vect_float b b c n m (b + i) = m (b + i) - m (c + i)
    ∧ dsp_sub_vect_float c b c n m (c + i) = m (b + i) - m (c + i)
    ∧ dsp_add_vect_float b b c n m (b + i) = m (b + i) + m (c + i)
    ∧ dsp_add_vect_float c b c n m (c + i) = m (b + i) + m (c + i)
    ∧ dsp_mul_vect_float b b c n m (b + i) = m (b + i) * m (c + i)
    ∧ dsp_mul_vect_float c b c n m (c + i) = m (b + i) * m (c + i) :=
  ⟨sub_read b b c n m (readSafe_self b n) (readSafe_rev hbc) i hi,
   sub_read c b c n m (readSafe_fwd hbc) (readSafe_self c n) i hi,
   add_read b b c n m (readSafe_self b n) (readSafe_rev hbc) i hi,
   add_read c b c n m (readSafe_fwd hbc) (readSafe_self c n) i hi,
   mul_read b b c n m (readSafe_self b n) (readSafe_rev hbc) i hi,
   mul_read c b c n m (readSafe_fwd hbc) (readSafe_self c n) i hi⟩

/-- C3 witness for the amended statement: buffers at cells 0-1 and 4-5,
length 2, evaluated at index 0. -/
theorem C3_witness :
    dsp_sub_vect_float 0 0 4 2 memW (0 + 0) = memW (0 + 0) - memW (4 + 0)
    ∧ dsp_sub_vect_float 4 0 4 2 memW (4 + 0) = memW (0 + 0) - memW (4 + 0)
    ∧ dsp_add_vect_float 0 0 4 2 memW (0 + 0) = memW (0 + 0) + memW (4 + 0)
    ∧ dsp_add_vect_float 4 0 4 2 memW (4 + 0) = memW (0 + 0) + memW (4 + 0)
    ∧ dsp_mul_vect_float 0 0 4 2 memW (0 + 0) = memW (0 + 0) * memW (4 + 0)
    ∧ dsp_mul_vect_float 4 0 4 2 memW (4 + 0) = memW (0 + 0) * memW (4 + 0) :=
  C3_real_inplace_amended 0 4 2 memW (by decide) 0 (by decide)

/-- C4: adding `B` to `A` and then subtracting `B` from the result
recovers `A` at every index — exact in the exact-arithmetic model
(samples as elements of a commutative ring). -/
theorem C4_add_sub_roundtrip (a b c d n : Nat) (m : Mem α)
    (hab : disjointRange a b n) (hac : disjointRange a c n)
    (hda : disjointRange d a n) (hdc : disjointRange d c n)
    (i : Nat) (hi : i < n) :
    dsp_sub_vect_float d a c n (dsp_add_vect_float a b c n m) (d + i) = m (b + i) := by
  rw [sub_read d a c n _ (readSafe_rev hda) (readSafe_rev hdc) i hi]
  rw [add_read a b c n m (readSafe_rev hab) (readSafe_rev hac) i hi]
  rw [add_frame a b c n m (c + i) (fun j hj => Ne.symm (hac j hj i hi))]
  ring

/-- C4 witness: `b` at cells 0-1, `c` at cells 2-3, sum at cells 4-5,
difference at cells 6-7, length 2, evaluated at index 1. -/
theorem C4_witness :
    dsp_sub_vect_float 6 4 2 2 (dsp_add_vect_float 4 0 2 2 memW) (6 + 1) = memW (0 + 1) :=
  C4_add_sub_roundtrip 4 0 2 6 2 memW (by decide) (by decide) (by decide) (by decide)
    1 (by decide)

/-- C5: swapping the two input buffers leaves every output element of
`dsp_mul_vect_float` and of `dsp_mul_vect_complex_float` unchanged
(commutativity of both multiplies). -/
theorem C5_mul_commutative (a b c n : Nat) (m : Mem α)
    (hab : disjointRange a b (2 * n)) (hac : disjointRange a c (2 * n))
    (i : Nat) (hi : i < n) :
    dsp_mul_vect_float a b c n m (a + i) = dsp_mul_vect_float a c b n m (a + i)
    ∧ dsp_mul_vect_complex_float a b c n m (a + 2 * i)
        = dsp_mul_vect_complex_float a c b n m (a + 2 * i)
    ∧ dsp_mul_vect_complex_float a b c n m (a + 2 * i + 1)
        = dsp_mul_vect_complex_float a c b n m (a + 2 * i + 1) := by
  have hab1 : disjointRange a b n := disjointRange_mono (by omega) hab
  have hac1 : disjointRange a c n := disjointRange_mono (by omega) hac
  refine ⟨?_, ?_, ?_⟩
  · rw [mul_read a b c n m (readSafe_rev hab1) (readSafe_rev hac1) i hi,
        mul_read a c b n m (readSafe_rev hac1) (readSafe_rev hab1) i hi]
    ring
  · rw [(cmul_read a b c m n hab hac i hi).1, (cmul_read a c b m n hac hab i hi).1]
    ring
  · rw [(cmul_read a b c m n hab hac i hi).2, (cmul_read a c b m n hac hab i hi).2]
    ring

/-- C5 witness: output at cells 0-3, inputs at cells 4-7 and 8-11,
length 2, evaluated at index 1. -/
theorem C5_witness :
    dsp_mul_vect_float 0 4 8 2 memW (0 + 1) = dsp_mul_vect_float 0 8 4 2 memW (0 + 1)
    ∧ dsp_mul_vect_complex_float 0 4 8 2 memW (0 + 2 * 1)
        = dsp_mul_vect_complex_float 0 8 4 2 memW (0 + 2 * 1)
    ∧ dsp_mul_vect_complex_float 0 4 8 2 memW (0 + 2 * 1 + 1)
        = dsp_mul_vect_complex_float 0 8 4 2 memW (0 + 2 * 1 + 1) :=
  C5_mul_commutative 0 4 8 2 memW (by decide) (by decide) 1 (by decide)

/-- C6: multiplying any complex sequence by the sequence whose every
element is the pair `(1, 0)` returns the original sequence unchanged. -/
theorem C6_complex_identity (a b c n : Nat) (m : Mem α)
    (hab : disjointRange a b (2 * n)) (hac : disjointRange a c (2 * n))
    (hone : ∀ i, i < n → m (c + 2 * i) = 1 ∧ m (c + 2 * i + 1) = 0)
    (i : Nat) (hi : i < n) :
    dsp_mul_vect_complex_float a b c n m (a + 2 * i) = m (b + 2 * i)
    ∧ dsp_mul_vect_complex_float a b c n m (a + 2 * i + 1) = m (b + 2 * i + 1) := by
  have h := cmul_read a b c m n hab hac i hi
  have h1 := (hone i hi).1
  have h0 := (hone i hi).2
  constructor
  · rw [h.1, h1, h0]; ring
  · rw [h.2, h1, h0]; ring

/-- C6 witness: `b = [(5, 7)]` at cells 2-3, `c = [(1, 0)]` at cells
4-5, output at cells 0-1, length 1. -/
theorem C6_witness :
    dsp_mul_vect_complex_float 0 2 4 1 memC6 (0 + 2 * 0) = memC6 (2 + 2 * 0)
    ∧ dsp_mul_vect_complex_float 0 2 4 1 memC6 (0 + 2 * 0 + 1) = memC6 (2 + 2 * 0 + 1) :=
  C6_complex_identity 0 2 4 1 memC6 (by decide) (by decide) (by decide) 0 (by decide)

/-- C7: with length zero each of the four kernels is a no-op: it returns
the memory unchanged, so no cell of any buffer is touched. -/
theorem C7_zero_length_noop (a b c : Nat) (m : Mem α) :
    dsp_sub_vect_float a b c 0 m = m
    ∧ dsp_add_vect_float a b c 0 m = m
    ∧ dsp_mul_vect_float a b c 0 m = m
    ∧ dsp_mul_vect_complex_float a b c 0 m = m :=
  ⟨rfl, rfl, rfl, rfl⟩

/-- C8: a call with length `n` modifies only the first `n` output
elements: every cell outside the written range — in particular every
cell of a disjoint input buffer and every output cell at index `n` or
beyond — holds its initial value afterwards.  The written range is
`n` cells for the real kernels and `2 * n` cells for the complex one. -/
theorem C8_frame_effect (a b c n : Nat) (m : Mem α) (q r : Nat)
    (hq : ∀ j, j < n → q ≠ a + j) (hr : ∀ j, j < 2 * n → r ≠ a + j) :
    dsp_sub_vect_float a b c n m q = m q
    ∧ dsp_add_vect_float a b c n m q = m q
    ∧ dsp_mul_vect_float a b c n m q = m q
    ∧ dsp_mul_vect_complex_float a b c n m r = m r :=
  ⟨sub_frame a b c n m q hq, add_frame a b c n m q hq, mul_frame a b c n m q hq,
   cmul_frame a b c m n r hr⟩

/-- C8 witness: output at cells 0-1 (0-3 for the complex kernel), inputs
at cells 4-7 and 8-11, length 2; cell 2 is beyond the real kernels'
written range and input cell 5 is outside the complex one's. -/
theorem C8_witness :
    dsp_sub_vect_float 0 4 8 2 memW 2 = memW 2
    ∧ dsp_add_vect_float 0 4 8 2 memW 2 = memW 2
    ∧ dsp_mul_vect_float 0 4 8 2 memW 2 = memW 2
    ∧ dsp_mul_vect_complex_float 0 4 8 2 memW 5 = memW 5 :=
  C8_frame_effect 0 4 8 2 memW 2 5 (by decide) (by decide)

/-- C9: for the three real kernels, full in-place aliasing (output =
first input or output = second input) produces at every index the same
value as the same call writing into a fresh disjoint buffer `o`: both
input cells at index `i` are read before the output cell `i` is
written, and no later iteration reads index `i` again. -/
theorem C9_real_inplace_eq_fresh (b c o n : Nat) (m : Mem α)
    (hbc : disjointRange b c n) (hob : disjointRange o b n) (hoc : disjointRange o c n)
    (i : Nat) (hi : i < n) :
    dsp_sub_vect_float b b c n m (b + i) = dsp_sub_vect_float o b c n m (o + i)
    ∧ dsp_sub_vect_float c b c n m (c + i) = dsp_sub_vect_float o b c n m (o + i)
    ∧ dsp_add_vect_float b b c n m (b + i) = dsp_add_vect_float o b c n m (o + i)
    ∧ dsp_add_vect_float c b c n m (c + i) = dsp_add_vect_float o b c n m (o + i)
    ∧ dsp_mul_vect_float b b c n m (b + i) = dsp_mul_vect_float o b c n m (o + i)
    ∧ dsp_mul_vect_float c b c n m (c + i) = dsp_mul_vect_float o b c n m (o + i) := by
  refine ⟨?_, ?_, ?_, ?_, ?_, ?_⟩
  · rw [sub_read b b c n m (readSafe_self b n) (readSafe_rev hbc) i hi,
        sub_read o b c n m (readSafe_rev hob) (readSafe_rev hoc) i hi]
  · rw [sub_read c b c n m (readSafe_fwd hbc) (readSafe_self c n) i hi,
        sub_read o b c n m (readSafe_rev hob) (readSafe_rev hoc) i hi]
  · rw [add_read b b c n m (readSafe_self b n) (readSafe_rev hbc) i hi,
        add_read o b c n m (readSafe_rev hob) (readSafe_rev hoc) i hi]
  · rw [add_read c b c n m (readSafe_fwd hbc) (readSafe_self c n) i hi,
        add_read o b c n m (readSafe_rev hob) (readSafe_rev hoc) i hi]
  · rw [mul_read b b c n m (readSafe_self b n) (readSafe_rev hbc) i hi,
        mul_read o b c n m (readSafe_rev hob) (readSafe_rev hoc) i hi]
  · rw [mul_read c b c n m (readSafe_fwd hbc) (readSafe_self c n) i hi,
        mul_read o b c n m (readSafe_rev hob) (readSafe_rev hoc) i hi]

/-- C9 witness: inputs at cells 0-1 and 4-5, fresh output at cells 8-9,
length 2, evaluated at index 1. -/
theorem C9_witness :
    dsp_sub_vect_float 0 0 4 2 memW (0 + 1) = dsp_sub_vect_float 8 0 4 2 memW (8 + 1)
    ∧ dsp_sub_vect_float 4 0 4 2 memW (4 + 1) = dsp_sub_vect_float 8 0 4 2 memW (8 + 1)
    ∧ dsp_add_vect_float 0 0 4 2 memW (0 + 1) = dsp_add_vect_float 8 0 4 2 memW (8 + 1)
    ∧ dsp_add_vect_float 4 0 4 2 memW (4 + 1) = dsp_add_vect_float 8 0 4 2 memW (8 + 1)
    ∧ dsp_mul_vect_float 0 0 4 2 memW (0 + 1) = dsp_mul_vect_float 8 0 4 2 memW (8 + 1)
    ∧ dsp_mul_vect_float 4 0 4 2 memW (4 + 1) = dsp_mul_vect_float 8 0 4 2 memW (8 + 1) :=
  C9_real_inplace_eq_fresh 0 4 8 2 memW (by decide) (by decide) (by decide) 1 (by decide)

/-- C10: in `dsp_mul_vect_complex_float` the real field of output
element `i` is assigned first and the imaginary-field expression then
re-reads `b[i].re` and `c[i].re`.  Consequently, when the output buffer
is input `b`, the written imaginary component is
`(b.re * c.re - b.im * c.im) * c.im + b.im * c.re`, and when the output
buffer is input `c` it is
`b.re * c.im + b.im * (b.re * c.re - b.im * c.im)`. -/
theorem C10_complex_inplace_im (b c n : Nat) (m : Mem α)
    (hbc : disjointRange b c (2 * n)) (i : Nat) (hi : i < n) :
    dsp_mul_vect_complex_float b b c n m (b + 2 * i + 1)
      = (m (b + 2 * i) * m (c + 2 * i) - m (b + 2 * i + 1) * m (c + 2 * i + 1))
          * m (c + 2 * i + 1)
        + m (b + 2 * i + 1) * m (c + 2 * i)
    ∧ dsp_mul_vect_complex_float c b c n m (c + 2 * i + 1)
      = m (b + 2 * i) * m (c + 2 * i + 1)
        + m (b + 2 * i + 1)
            * (m (b + 2 * i) * m (c + 2 * i) - m (b + 2 * i + 1) * m (c + 2 * i + 1)) :=
  ⟨(cmul_inplace_b b c m n hbc i hi).2, (cmul_inplace_c b c m n hbc i hi).2⟩

/-- C10 witness: `b = [(1, 2)]` at cells 0-1, `c = [(3, 4)]` at cells
4-5, length 1; the aliased imaginary components are `-14` and `-6`. -/
theorem C10_witness :
    dsp_mul_vect_complex_float 0 0 4 1 memC10 (0 + 2 * 0 + 1)
      = (memC10 (0 + 2 * 0) * memC10 (4 + 2 * 0)
          - memC10 (0 + 2 * 0 + 1) * memC10 (4 + 2 * 0 + 1)) * memC10 (4 + 2 * 0 + 1)
        + memC10 (0 + 2 * 0 + 1) * memC10 (4 + 2 * 0)
    ∧ dsp_mul_vect_complex_float 4 0 4 1 memC10 (4 + 2 * 0 + 1)
      = memC10 (0 + 2 * 0) * memC10 (4 + 2 * 0 + 1)
        + memC10 (0 + 2 * 0 + 1)
            * (memC10 (0 + 2 * 0) * memC10 (4 + 2 * 0)
                - memC10 (0 + 2 * 0 + 1) * memC10 (4 + 2 * 0 + 1)) :=
  C10_complex_inplace_im 0 4 1 memC10 (by decide) 0 (by decide)

end DspFpVector
